import Mathlib

/-!
Shallow embedding of the NimbleSM hexahedral element kernel
(`src/nimble_element.h`, class `HexElement`), over an arbitrary linearly
ordered field `K` standing for exact real arithmetic on `double`s.

The templated `_impl` member functions (`ComputeConsistentMass_impl`,
`ComputeVolumeAverageQuantities_impl`, `ComputeDeformationGradients_impl`,
`ComputeNodalForces_impl`) are translated directly from the header.
The pieces of the repository that live outside the provided sources —
the `HexElement` constructor that fills the quadrature / shape-function
tables, the `Invert3x3` primitive, `ComputeLumpedMass`,
`ComputeCharacteristicLength` and `ComputeTangent` — are modelled from the
spec and are marked as such in their doc comments.
-/

namespace Nimble

variable {K : Type} [LinearOrderedField K]

/-- Sign pattern (±1) of each of the 8 hexahedral nodes in each of the 3
natural coordinates, in the standard node ordering of the trilinear hex
(nodes 0–3 on the bottom face counter-clockwise, 4–7 above them).
Modelled from the spec: §4.2, "standard trilinear hexahedral basis";
the concrete table lives in the element constructor, outside the
provided sources.  Every claim below is independent of the ordering of
the 8 sign patterns; what matters is that all 8 patterns occur. -/
def hexSign (i : Fin 8) (c : Fin 3) : ℤ :=
  if c = 0 then (if i = 1 ∨ i = 2 ∨ i = 5 ∨ i = 6 then 1 else -1)
  else if c = 1 then (if i = 2 ∨ i = 3 ∨ i = 6 ∨ i = 7 then 1 else -1)
  else (if i = 4 ∨ i = 5 ∨ i = 6 ∨ i = 7 then 1 else -1)

/-- Trilinear shape function of node `i` evaluated at natural coordinates
`x ∈ [-1,1]^3`.  Modelled from the spec: §4.2, the standard trilinear
hexahedral basis `N_i(ξ,η,ζ) = (1/8)(1+ξ_i ξ)(1+η_i η)(1+ζ_i ζ)`. -/
def shapeVal (x : Fin 3 → K) (i : Fin 8) : K :=
  (1 / 8) * (1 + (hexSign i 0 : K) * x 0) * (1 + (hexSign i 1 : K) * x 1)
    * (1 + (hexSign i 2 : K) * x 2)

/-- Natural-coordinate derivative of the trilinear shape function of node
`i` at `x`, component `c`.  Modelled from the spec: §4.2. -/
def shapeDeriv (x : Fin 3 → K) (i : Fin 8) (c : Fin 3) : K :=
  if c = 0 then
    (1 / 8) * (hexSign i 0 : K) * (1 + (hexSign i 1 : K) * x 1) * (1 + (hexSign i 2 : K) * x 2)
  else if c = 1 then
    (1 / 8) * (1 + (hexSign i 0 : K) * x 0) * (hexSign i 1 : K) * (1 + (hexSign i 2 : K) * x 2)
  else
    (1 / 8) * (1 + (hexSign i 0 : K) * x 0) * (1 + (hexSign i 1 : K) * x 1) * (hexSign i 2 : K)

/-- Natural coordinates of integration point `p` of the 2×2×2 Gauss rule.
Modelled from the spec: §4.2 fixes the 8 points at ±1/√3 in each natural
coordinate; the magnitude is kept as the parameter `g` (the source's value
is `g = 1/√3`) because every property proved below holds for every `g`,
in particular for the source's value. -/
def intPt (g : K) (p : Fin 8) : Fin 3 → K := fun c => (hexSign p c : K) * g

/-- Integration weights of the 2×2×2 Gauss rule, the table `int_wts_`.
Modelled from the spec: §4.2, "unit weights for the reference cube". -/
def int_wts : Fin 8 → K := fun _ => 1

/-- The table `shape_fcn_vals_`: shape function value of node `i` at
integration point `p` (built in the element constructor, modelled from
the spec §4.2). -/
def shape_fcn_vals (g : K) (p : Fin 8) (i : Fin 8) : K := shapeVal (intPt g p) i

/-- The table `shape_fcn_deriv_`: natural-coordinate derivative `c` of the
shape function of node `i` at integration point `p`
(`shape_fcn_deriv_[24*p + 3*i + c]` in the source, modelled from the
spec §4.2). -/
def shape_fcn_deriv (g : K) (p : Fin 8) (i : Fin 8) (c : Fin 3) : K :=
  shapeDeriv (intPt g p) i c

/-- 3×3 matrices, row-major as in the `double a[][3]` locals of the source. -/
def Mat3 (K : Type) := Fin 3 → Fin 3 → K

/-- Determinant of a 3×3 matrix by cofactor expansion along the first row.
Modelled from the spec: §4.3, `Invert3x3` "computes the determinant via the
standard cofactor expansion". -/
def det3 (m : Mat3 K) : K :=
  m 0 0 * (m 1 1 * m 2 2 - m 1 2 * m 2 1)
    - m 0 1 * (m 1 0 * m 2 2 - m 1 2 * m 2 0)
    + m 0 2 * (m 1 0 * m 2 1 - m 1 1 * m 2 0)

/-- Adjugate (transposed cofactor matrix) of a 3×3 matrix.
Modelled from the spec: §4.3, "the inverse via the adjugate divided by the
determinant". -/
def adj3 (m : Mat3 K) : Mat3 K := fun i j =>
  if i = 0 then
    (if j = 0 then m 1 1 * m 2 2 - m 1 2 * m 2 1
     else if j = 1 then -(m 0 1 * m 2 2 - m 0 2 * m 2 1)
     else m 0 1 * m 1 2 - m 0 2 * m 1 1)
  else if i = 1 then
    (if j = 0 then -(m 1 0 * m 2 2 - m 1 2 * m 2 0)
     else if j = 1 then m 0 0 * m 2 2 - m 0 2 * m 2 0
     else -(m 0 0 * m 1 2 - m 0 2 * m 1 0))
  else
    (if j = 0 then m 1 0 * m 2 1 - m 1 1 * m 2 0
     else if j = 1 then -(m 0 0 * m 2 1 - m 0 1 * m 2 0)
     else m 0 0 * m 1 1 - m 0 1 * m 1 0)

/-- The inverse filled into the caller's `a_inv` array: adjugate divided by
the determinant.  Modelled from the spec: §4.3. -/
def inv3 (m : Mat3 K) : Mat3 K := fun i j => adj3 m i j / det3 m

/-- Row-by-column product of two 3×3 matrices, as in the
`def_grad[j][k] = a[j][0]*b_inv[0][k] + ...` loop of the source. -/
def matMul3 (a b : Mat3 K) : Mat3 K := fun i j => ∑ k : Fin 3, a i k * b k j

/-- The 3×3 identity matrix. -/
def idMat3 : Mat3 K := fun i j => if i = j then 1 else 0

/-- Error taxonomy of the element kernel.  Modelled from the spec: §7. -/
inductive ElementError : Type
  | degenerateGeometry : ElementError
deriving DecidableEq

/-- `Invert3x3(matrix) -> (inverse, determinant)`.  Modelled from the spec:
§4.3 — the determinant by cofactor expansion, the inverse as adjugate over
determinant, and "when the determinant's magnitude is at or below a small
numerical threshold, the operation signals a `DegenerateGeometry`
condition rather than silently dividing by zero".  The threshold is kept
as the parameter `ε`. -/
def Invert3x3 (ε : K) (m : Mat3 K) : Except ElementError (Mat3 K × K) :=
  if |det3 m| ≤ ε then .error .degenerateGeometry else .ok (inv3 m, det3 m)

/-- The Jacobian matrix `a` (resp. `b`) assembled at integration point `p`
from nodal coordinates `coords`:
`a[r][c] = Σ_n coords(n,r) · shape_fcn_deriv_[24p + 3n + c]`,
exactly the accumulation loop shared by every `_impl` function of
`nimble_element.h` (lines 280–296, 364–380, 450–482, 566–582). -/
def jac (g : K) (coords : Fin 8 → Fin 3 → K) (p : Fin 8) : Mat3 K :=
  fun r c => ∑ n : Fin 8, coords n r * shape_fcn_deriv g p n c

/-- Current coordinates: reference coordinates plus displacements
(`cc = node_reference_coords(n,i) + node_displacements(n,i)` in the
source). -/
def curCoords (ref disp : Fin 8 → Fin 3 → K) : Fin 8 → Fin 3 → K :=
  fun n c => ref n c + disp n c

/-- Whether the Jacobian at integration point `p` of `coords` trips the
degeneracy check of `Invert3x3` (§4.3): determinant magnitude at or below
the threshold `ε`. -/
def degenerateAt (g ε : K) (coords : Fin 8 → Fin 3 → K) (p : Fin 8) : Prop :=
  |det3 (jac g coords p)| ≤ ε

instance (g ε : K) (coords : Fin 8 → Fin 3 → K) (p : Fin 8) :
    Decidable (degenerateAt g ε coords p) := by
  unfold degenerateAt; infer_instance

/-- `HexElement::ComputeConsistentMass_impl` (`nimble_element.h` lines
266–309): per integration point the reference-configuration Jacobian is
built and handed to `Invert3x3` (whose `DegenerateGeometry` signal the
caller does not absorb, so any degenerate point fails the whole call);
on success the 8×8 matrix entry `(i,j)` is
`Σ_p int_wts_[p] · density · shape_fcn_vals_[p,i] · shape_fcn_vals_[p,j] · jac_det[p]`. -/
def ComputeConsistentMass_impl (g ε : K) (density : K) (coords : Fin 8 → Fin 3 → K) :
    Except ElementError (Fin 8 → Fin 8 → K) :=
  if ∀ p : Fin 8, ¬ degenerateAt g ε coords p then
    .ok (fun i j => ∑ p : Fin 8,
      int_wts (K := K) p * density * shape_fcn_vals g p i * shape_fcn_vals g p j
        * det3 (jac g coords p))
  else .error .degenerateGeometry

/-- `HexElement::ComputeLumpedMass`.  Modelled from the spec: §4.4 — the
body lives outside the provided sources.  "for each integration point,
build the Jacobian of the reference-configuration isoparametric map,
invert it to get its determinant, then accumulate
`weight · density · shapeValue_i · determinant` into node `i`'s mass";
the `Invert3x3` degeneracy signal propagates (§7). -/
def ComputeLumpedMass (g ε : K) (density : K) (coords : Fin 8 → Fin 3 → K) :
    Except ElementError (Fin 8 → K) :=
  if ∀ p : Fin 8, ¬ degenerateAt g ε coords p then
    .ok (fun i => ∑ p : Fin 8,
      int_wts (K := K) p * density * shape_fcn_vals g p i * det3 (jac g coords p))
  else .error .degenerateGeometry

/-- `HexElement::ComputeVolumeAverageQuantities_impl` (`nimble_element.h`
lines 343–392): per integration point the current-configuration Jacobian
(reference + displacement) is built and handed to `Invert3x3`
(degeneracy propagates); `volume` accumulates `jac_det` alone (line 382),
each of the `nq` quantities accumulates
`int_pt_quantities(p,i) · int_wts_[p] · jac_det`, and at the end each
accumulated quantity is divided by `volume`. -/
def ComputeVolumeAverageQuantities_impl (g ε : K) {nq : ℕ} (ref disp : Fin 8 → Fin 3 → K)
    (q : Fin 8 → Fin nq → K) :
    Except ElementError (K × (Fin nq → K)) :=
  if ∀ p : Fin 8, ¬ degenerateAt g ε (curCoords ref disp) p then
    .ok (∑ p : Fin 8, det3 (jac g (curCoords ref disp) p),
      fun i => (∑ p : Fin 8,
          q p i * int_wts (K := K) p * det3 (jac g (curCoords ref disp) p))
        / ∑ p : Fin 8, det3 (jac g (curCoords ref disp) p))
  else .error .degenerateGeometry

/-- The engineering-order slot assignment for a full (9-component) tensor:
`K_F_XX_=0 ↦ F[0][0]`, `K_F_YY_=1 ↦ F[1][1]`, `K_F_ZZ_=2 ↦ F[2][2]`,
`K_F_XY_=3 ↦ F[0][1]`, `K_F_YZ_=4 ↦ F[1][2]`, `K_F_ZX_=5 ↦ F[2][0]`,
`K_F_YX_=6 ↦ F[1][0]`, `K_F_ZY_=7 ↦ F[2][1]`, `K_F_XZ_=8 ↦ F[0][2]`,
exactly the nine writes at `nimble_element.h` lines 492–500. -/
def fullTensorOfMat (m : Mat3 K) : Fin 9 → K := fun k =>
  if k = 0 then m 0 0 else if k = 1 then m 1 1 else if k = 2 then m 2 2
  else if k = 3 then m 0 1 else if k = 4 then m 1 2 else if k = 5 then m 2 0
  else if k = 6 then m 1 0 else if k = 7 then m 2 1 else m 0 2

/-- `HexElement::ComputeDeformationGradients_impl` (`nimble_element.h`
lines 430–502): per integration point, `a` is the current-configuration
Jacobian and `b` the reference-configuration one; `Invert3x3(b, b_inv)`
is called (only `b` is inverted, so only a degenerate reference Jacobian
signals), `def_grad = a · b_inv`, written in the full 9-component
engineering order. -/
def ComputeDeformationGradients_impl (g ε : K) (ref disp : Fin 8 → Fin 3 → K) :
    Except ElementError (Fin 8 → Fin 9 → K) :=
  if ∀ p : Fin 8, ¬ degenerateAt g ε ref p then
    .ok (fun p => fullTensorOfMat
      (matMul3 (jac g (curCoords ref disp) p) (inv3 (jac g ref p))))
  else .error .degenerateGeometry

/-- Spatial (physical-coordinate) shape-function derivative of node `n` at
integration point `p` of the current configuration:
`dN_dxj = Σ_c shape_fcn_deriv_[24p+3n+c] · a_inv[c][j]`
(`nimble_element.h` lines 587–597). -/
def dNdx (g : K) (cur : Fin 8 → Fin 3 → K) (p n : Fin 8) (j : Fin 3) : K :=
  ∑ c : Fin 3, shape_fcn_deriv g p n c * inv3 (jac g cur p) c j

/-- The stress-divergence contribution `f1,f2,f3` of node `n` at
integration point `p`, contracted with the symmetric engineering-order
stress `(XX,YY,ZZ,XY,YZ,ZX)` via the aliases `K_S_YX_=3`, `K_S_ZY_=4`,
`K_S_XZ_=5` (`nimble_element.h` lines 599–606). -/
def stressDiv (g : K) (cur : Fin 8 → Fin 3 → K) (stress : Fin 8 → Fin 6 → K)
    (p n : Fin 8) (j : Fin 3) : K :=
  if j = 0 then
    dNdx g cur p n 0 * stress p 0 + dNdx g cur p n 1 * stress p 3
      + dNdx g cur p n 2 * stress p 5
  else if j = 1 then
    dNdx g cur p n 0 * stress p 3 + dNdx g cur p n 1 * stress p 1
      + dNdx g cur p n 2 * stress p 4
  else
    dNdx g cur p n 0 * stress p 5 + dNdx g cur p n 1 * stress p 4
      + dNdx g cur p n 2 * stress p 2

/-- The local `force[node][j]` accumulator at the end of the integration
loop of `ComputeNodalForces_impl`: each point's scaled contribution
`f_j · jac_det · int_wts_[p]` is subtracted (`force[node][j] -= f_j`,
`nimble_element.h` lines 608–616). -/
def forceVal (g : K) (ref disp : Fin 8 → Fin 3 → K) (stress : Fin 8 → Fin 6 → K)
    (n : Fin 8) (j : Fin 3) : K :=
  ∑ p : Fin 8, -(stressDiv g (curCoords ref disp) stress p n j
      * det3 (jac g (curCoords ref disp) p) * int_wts (K := K) p)

/-- The 24 `(node, component)` slots of the `node_forces` buffer, in the
order the write-out loop of `ComputeNodalForces_impl` visits them. -/
def allSlots : List (Fin 8 × Fin 3) :=
  [(0, 0), (0, 1), (0, 2), (1, 0), (1, 1), (1, 2), (2, 0), (2, 1), (2, 2),
   (3, 0), (3, 1), (3, 2), (4, 0), (4, 1), (4, 2), (5, 0), (5, 1), (5, 2),
   (6, 0), (6, 1), (6, 2), (7, 0), (7, 1), (7, 2)]

/-- The final write-out loop of `ComputeNodalForces_impl`
(`nimble_element.h` lines 620–624): every slot `(node, j)` of the
caller's `node_forces` buffer is assigned (`node_forces(node,j) = ...`),
modelled as a fold of single-slot writes over the 24 slots starting from
the buffer's prior contents `buf`. -/
def writeForces (F : Fin 8 → Fin 3 → K) (buf : Fin 8 → Fin 3 → K) :
    Fin 8 → Fin 3 → K :=
  allSlots.foldl
    (fun b s => fun n j => if n = s.1 ∧ j = s.2 then F s.1 s.2 else b n j) buf

/-- `HexElement::ComputeNodalForces_impl` (`nimble_element.h` lines
540–625): per integration point the current-configuration Jacobian is
built and inverted (`Invert3x3` degeneracy propagates); the spatial
derivatives contract the symmetric stress, are scaled by
`jac_det · int_wts_[p]`, accumulated with a minus sign into the local
`force` array, and finally assigned into the caller's buffer. -/
def ComputeNodalForces_impl (g ε : K) (ref disp : Fin 8 → Fin 3 → K)
    (stress : Fin 8 → Fin 6 → K) (buf : Fin 8 → Fin 3 → K) :
    Except ElementError (Fin 8 → Fin 3 → K) :=
  if ∀ p : Fin 8, ¬ degenerateAt g ε (curCoords ref disp) p then
    .ok (writeForces (forceVal g ref disp stress) buf)
  else .error .degenerateGeometry

/-- Strain-displacement row `r ∈ Fin 6` against the degree of freedom
`(n, j)` at integration point `p`, the standard engineering-order `B`
matrix built from the spatial shape derivatives.  Modelled from the
spec: §4.5 — `ComputeTangent`'s body lives outside the provided sources;
"it reuses the same Jacobian machinery ... its numerical core mirrors
the nodal-force integration but integrates the material tangent instead
of stress". -/
def bMatEntry (g : K) (cur : Fin 8 → Fin 3 → K) (p : Fin 8) (r : Fin 6)
    (d : Fin 8 × Fin 3) : K :=
  if r = 0 then (if d.2 = 0 then dNdx g cur p d.1 0 else 0)
  else if r = 1 then (if d.2 = 1 then dNdx g cur p d.1 1 else 0)
  else if r = 2 then (if d.2 = 2 then dNdx g cur p d.1 2 else 0)
  else if r = 3 then
    (if d.2 = 0 then dNdx g cur p d.1 1 else if d.2 = 1 then dNdx g cur p d.1 0 else 0)
  else if r = 4 then
    (if d.2 = 1 then dNdx g cur p d.1 2 else if d.2 = 2 then dNdx g cur p d.1 1 else 0)
  else
    (if d.2 = 0 then dNdx g cur p d.1 2 else if d.2 = 2 then dNdx g cur p d.1 0 else 0)

/-- `HexElement::ComputeTangent`.  Modelled from the spec: §4.5 — the body
lives outside the provided sources.  It maps the 6×6 engineering-order
material tangent `C` into the element tangent `Σ_p w_p · jac_det_p · BᵀCB`
per degree-of-freedom pair, reusing the Jacobian machinery of §4.3 so
that the `DegenerateGeometry` signal propagates (§7). -/
def ComputeTangent (g ε : K) (coords : Fin 8 → Fin 3 → K)
    (C : Fin 6 → Fin 6 → K) :
    Except ElementError ((Fin 8 × Fin 3) → (Fin 8 × Fin 3) → K) :=
  if ∀ p : Fin 8, ¬ degenerateAt g ε coords p then
    .ok (fun d e => ∑ p : Fin 8, int_wts (K := K) p * det3 (jac g coords p)
      * ∑ r : Fin 6, ∑ s : Fin 6, bMatEntry g coords p r d * C r s * bMatEntry g coords p s e)
  else .error .degenerateGeometry

/-- Node coordinates of the regular unit cube `[0,1]^3`, node `n` sitting at
the corner whose sign pattern is `hexSign n`. -/
def unitCube : Fin 8 → Fin 3 → K := fun n c => if hexSign n c = 1 then 1 else 0

/-- Uniform scaling of a set of node coordinates by the factor `s`. -/
def scaleCoords (s : K) (coords : Fin 8 → Fin 3 → K) : Fin 8 → Fin 3 → K :=
  fun n c => s * coords n c

/-- Squared distance between the two nodes of the pair `pr`. -/
def distSq (coords : Fin 8 → Fin 3 → K) (pr : Fin 8 × Fin 8) : K :=
  ∑ c : Fin 3, (coords pr.1 c - coords pr.2 c) ^ 2

/-- The two diagonals of each of the six faces of the hexahedron (in the
node ordering of `hexSign`): twelve node pairs. -/
def faceDiagonals : List (Fin 8 × Fin 8) :=
  [(0, 2), (1, 3), (4, 6), (5, 7), (0, 5), (1, 4), (1, 6), (2, 5),
   (2, 7), (3, 6), (3, 4), (0, 7)]

/-- Smallest squared face diagonal of the hexahedron. -/
def minFaceDiagSq (coords : Fin 8 → Fin 3 → K) : K :=
  (faceDiagonals.map (distSq coords)).foldr min (distSq coords (0, 2))

/-- `HexElement::ComputeCharacteristicLength`.  Modelled from the spec:
§4.1 — the body lives outside the provided sources; it "returns a
representative element size (e.g., derived from the smallest face
diagonal or equivalent volumetric measure)", modelled here as the length
of the smallest face diagonal. -/
noncomputable def ComputeCharacteristicLength (coords : Fin 8 → Fin 3 → ℝ) : ℝ :=
  Real.sqrt (minFaceDiagSq coords)

/-- Zero node-coordinate buffer over `ℚ` (a fully collapsed element), used
as a concrete degenerate input. -/
def zeroCoords : Fin 8 → Fin 3 → ℚ := fun _ _ => 0

/-- Zero symmetric integration-point stress over `ℚ`. -/
def zeroStress : Fin 8 → Fin 6 → ℚ := fun _ _ => 0

/-- The zero 3×3 matrix over `ℚ` (a concrete singular input). -/
def zeroMat : Mat3 ℚ := fun _ _ => 0

/-! ### Supporting lemmas -/

/-- Partition of unity of the trilinear basis: the 8 shape functions sum
to 1 at every natural-coordinate point. -/
lemma sum_shapeVal (x : Fin 3 → K) : ∑ i : Fin 8, shapeVal x i = 1 := by
  simp [shapeVal, hexSign, Fin.sum_univ_eight]
  ring

/-- Cofactor identity: a 3×3 matrix times its adjugate-over-determinant
inverse is the identity whenever the determinant is nonzero. -/
lemma matMul3_inv3 (m : Mat3 K) (h : det3 m ≠ 0) : matMul3 m (inv3 m) = idMat3 := by
  simp only [det3] at h
  funext i j
  fin_cases i <;> fin_cases j <;>
    · simp [matMul3, inv3, adj3, det3, idMat3, Fin.sum_univ_three]
      try field_simp
      try ring

/-- Zero displacements leave the current coordinates equal to the
reference coordinates. -/
lemma curCoords_zero (ref : Fin 8 → Fin 3 → K) :
    curCoords ref (fun _ _ => 0) = ref := by
  funext n c
  simp [curCoords]

/-- The displacement `s·X - X` puts the current coordinates at `s·X`. -/
lemma curCoords_dilation (s : K) (ref : Fin 8 → Fin 3 → K) :
    curCoords ref (fun n c => s * ref n c - ref n c) = fun n c => s * ref n c := by
  funext n c
  simp [curCoords]

/-- The assembled Jacobian is linear in the nodal coordinates: scaling
every coordinate by `s` scales every Jacobian entry by `s`. -/
lemma jac_smul (g s : K) (coords : Fin 8 → Fin 3 → K) (p : Fin 8) :
    jac g (fun n c => s * coords n c) p = fun r c => s * jac g coords p r c := by
  funext r c
  simp [jac, Finset.mul_sum, mul_assoc]

/-- Scaling the left factor of a 3×3 product scales the product. -/
lemma matMul3_smul_left (s : K) (a b : Mat3 K) :
    matMul3 (fun i j => s * a i j) b = fun i j => s * matMul3 a b i j := by
  funext i j
  simp [matMul3, Finset.mul_sum, mul_assoc]

/-- The identity matrix written in the full 9-slot engineering order:
ones in the XX, YY, ZZ slots (0, 1, 2), zeros elsewhere. -/
lemma fullTensorOfMat_id :
    fullTensorOfMat (idMat3 (K := K)) = fun k : Fin 9 => if k.val < 3 then 1 else 0 := by
  funext k
  fin_cases k <;> simp [fullTensorOfMat, idMat3]

/-- `s` times the identity matrix in engineering order: `s` in the
diagonal slots, zeros elsewhere. -/
lemma fullTensorOfMat_smul_id (s : K) :
    fullTensorOfMat (fun i j => s * idMat3 (K := K) i j)
      = fun k : Fin 9 => if k.val < 3 then s else 0 := by
  funext k
  fin_cases k <;> simp [fullTensorOfMat, idMat3]

/-- A slot not named by any pair of the write list keeps its prior
buffer contents. -/
lemma foldl_write_not_mem (F : Fin 8 → Fin 3 → K) :
    ∀ (l : List (Fin 8 × Fin 3)) (buf : Fin 8 → Fin 3 → K) (n : Fin 8) (j : Fin 3),
      (n, j) ∉ l →
      (l.foldl (fun b s => fun n' j' => if n' = s.1 ∧ j' = s.2 then F s.1 s.2 else b n' j')
        buf) n j = buf n j := by
  intro l
  induction l with
  | nil => intro buf n j _; rfl
  | cons s t ih =>
    intro buf n j h
    rw [List.foldl_cons, ih _ n j (fun hmem => h (List.mem_cons_of_mem _ hmem))]
    have hne : ¬ (n = s.1 ∧ j = s.2) := by
      rintro ⟨h1, h2⟩
      exact h (by rw [List.mem_cons]; left; rw [Prod.ext_iff]; exact ⟨h1, h2⟩)
    simp [hne]

/-- A slot named by some pair of the write list ends up holding the
computed value for that slot. -/
lemma foldl_write_mem (F : Fin 8 → Fin 3 → K) :
    ∀ (l : List (Fin 8 × Fin 3)) (buf : Fin 8 → Fin 3 → K) (n : Fin 8) (j : Fin 3),
      (n, j) ∈ l →
      (l.foldl (fun b s => fun n' j' => if n' = s.1 ∧ j' = s.2 then F s.1 s.2 else b n' j')
        buf) n j = F n j := by
  intro l
  induction l with
  | nil => intro buf n j h; simp at h
  | cons s t ih =>
    intro buf n j h
    by_cases hmem : (n, j) ∈ t
    · rw [List.foldl_cons, ih _ n j hmem]
    · have hs : (n, j) = s := by
        rcases List.mem_cons.mp h with h1 | h2
        · exact h1
        · exact absurd h2 hmem
      rw [List.foldl_cons, foldl_write_not_mem F t _ n j hmem]
      rw [Prod.ext_iff] at hs
      simp [hs.1, hs.2, ← hs.1, ← hs.2]

/-- The write-out loop assigns every slot, so the final buffer contents
are exactly the computed forces, whatever the buffer held before. -/
lemma writeForces_apply (F buf : Fin 8 → Fin 3 → K) : writeForces F buf = F := by
  funext n j
  exact foldl_write_mem F allSlots buf n j (by fin_cases n <;> fin_cases j <;> decide)

/-- A Jacobian that passes the degeneracy check has nonzero determinant
(for a nonnegative threshold). -/
lemma det_ne_zero_of_not_degenerate {g ε : K} {coords : Fin 8 → Fin 3 → K}
    {p : Fin 8} (hε : 0 ≤ ε) (h : ¬ degenerateAt g ε coords p) :
    det3 (jac g coords p) ≠ 0 := by
  intro h0
  exact h (by simp [degenerateAt, h0, hε])

/-- Every face diagonal of the unit cube scaled by `s` has squared length
`2 s²`. -/
lemma distSq_scale_unitCube (s : K) :
    ∀ pr ∈ faceDiagonals, distSq (scaleCoords s (unitCube (K := K))) pr = 2 * s ^ 2 := by
  intro pr hpr
  fin_cases hpr <;>
    · simp [distSq, scaleCoords, unitCube, hexSign, Fin.sum_univ_three]
      ring

/-- The smallest squared face diagonal of the uniformly scaled unit cube
is `2 s²`. -/
lemma minFaceDiagSq_scale_unitCube (s : K) :
    minFaceDiagSq (scaleCoords s (unitCube (K := K))) = 2 * s ^ 2 := by
  have h0 : distSq (scaleCoords s (unitCube (K := K))) (0, 2) = 2 * s ^ 2 :=
    distSq_scale_unitCube s (0, 2) (by simp [faceDiagonals])
  have hmap : faceDiagonals.map (distSq (scaleCoords s (unitCube (K := K))))
      = List.replicate 12 (2 * s ^ 2) := by
    have := distSq_scale_unitCube (K := K) s
    simp only [faceDiagonals] at this ⊢
    simp [List.map_cons, this]
  rw [minFaceDiagSq, hmap, h0]
  simp [List.replicate, min_self]

/-- Scaling by 1 is the identity on node coordinates. -/
lemma scaleCoords_one (coords : Fin 8 → Fin 3 → K) : scaleCoords 1 coords = coords := by
  funext n c
  simp [scaleCoords]

/-- The trilinear basis reproduces affine coordinate fields exactly, so
the Jacobian of the unit cube is `diag(1/2)` at every evaluation point
(whatever the quadrature magnitude `g`). -/
lemma jac_unitCube (g : K) (p : Fin 8) :
    jac g (unitCube (K := K)) p = fun r c => if r = c then (1 / 2 : K) else 0 := by
  funext r c
  fin_cases r <;> fin_cases c <;>
    · simp [jac, unitCube, shape_fcn_deriv, shapeDeriv, hexSign, Fin.sum_univ_eight]
      try ring

/-- The Jacobian determinant of the unit cube is `1/8` at every
integration point. -/
lemma det3_jac_unitCube (g : K) (p : Fin 8) :
    det3 (jac g (unitCube (K := K)) p) = 1 / 8 := by
  rw [jac_unitCube]
  show (1 / 2 : K) * ((1 / 2 : K) * (1 / 2) - 0 * 0) - 0 * (0 * (1 / 2) - 0 * 0)
      + 0 * (0 * 0 - (1 / 2) * 0) = 1 / 8
  norm_num

/-! ### Claim theorems -/

/-- C1: whenever a 3×3 matrix has determinant magnitude at or below the
threshold, `Invert3x3` signals `DegenerateGeometry` instead of dividing
by zero, and every operation that calls it — lumped mass, consistent
mass, deformation gradients, nodal forces, tangent, volume averaging —
propagates the condition as an element-level failure (no numeric output
is produced) as soon as one of its integration-point Jacobians is
degenerate. -/
theorem invert3x3_degeneracy_propagates (g ε ρ : K) (m : Mat3 K)
    (ref disp : Fin 8 → Fin 3 → K) (stress : Fin 8 → Fin 6 → K)
    (C : Fin 6 → Fin 6 → K) {nq : ℕ} (q : Fin 8 → Fin nq → K)
    (buf : Fin 8 → Fin 3 → K)
    (hm : |det3 m| ≤ ε)
    (href : ∃ p : Fin 8, degenerateAt g ε ref p)
    (hcur : ∃ p : Fin 8, degenerateAt g ε (curCoords ref disp) p) :
    Invert3x3 ε m = .error .degenerateGeometry ∧
    ComputeLumpedMass g ε ρ ref = .error .degenerateGeometry ∧
    ComputeConsistentMass_impl g ε ρ ref = .error .degenerateGeometry ∧
    ComputeDeformationGradients_impl g ε ref disp = .error .degenerateGeometry ∧
    ComputeNodalForces_impl g ε ref disp stress buf = .error .degenerateGeometry ∧
    ComputeTangent g ε (curCoords ref disp) C = .error .degenerateGeometry ∧
    ComputeVolumeAverageQuantities_impl g ε ref disp q = .error .degenerateGeometry := by
  obtain ⟨p1, hp1⟩ := href
  obtain ⟨p2, hp2⟩ := hcur
  have h1 : ¬ ∀ p : Fin 8, ¬ degenerateAt g ε ref p := fun hall => hall p1 hp1
  have h2 : ¬ ∀ p : Fin 8, ¬ degenerateAt g ε (curCoords ref disp) p :=
    fun hall => hall p2 hp2
  refine ⟨by rw [Invert3x3, if_pos hm], ?_, ?_, ?_, ?_, ?_, ?_⟩
  · rw [ComputeLumpedMass, if_neg h1]
  · rw [ComputeConsistentMass_impl, if_neg h1]
  · rw [ComputeDeformationGradients_impl, if_neg h1]
  · rw [ComputeNodalForces_impl, if_neg h2]
  · rw [ComputeTangent, if_neg h2]
  · rw [ComputeVolumeAverageQuantities_impl, if_neg h2]

/-- C2: with zero displacements (current = reference coordinates) and
non-degenerate reference Jacobians, every integration point's deformation
gradient is the identity tensor: ones in the XX, YY, ZZ slots of the
9-component engineering order, zeros elsewhere. -/
theorem defGrad_identity_at_zero_displacement (g ε : K) (ref : Fin 8 → Fin 3 → K)
    (hε : 0 ≤ ε) (h : ∀ p : Fin 8, ¬ degenerateAt g ε ref p) :
    ComputeDeformationGradients_impl g ε ref (fun _ _ => 0)
      = .ok (fun _ k => if k.val < 3 then 1 else 0) := by
  rw [ComputeDeformationGradients_impl, if_pos h]
  congr 1
  funext p
  rw [curCoords_zero, matMul3_inv3 _ (det_ne_zero_of_not_degenerate hε (h p)),
    fullTensorOfMat_id]

/-- C3: the sum over the 8 nodes of the lumped masses equals the density
times the element's integrated reference volume, the quadrature sum of
weight times Jacobian determinant (exactly, in exact arithmetic). -/
theorem lumpedMass_sum_eq_density_mul_volume (g ε ρ : K)
    (coords : Fin 8 → Fin 3 → K) (h : ∀ p : Fin 8, ¬ degenerateAt g ε coords p) :
    ∃ lm, ComputeLumpedMass g ε ρ coords = .ok lm ∧
      ∑ i : Fin 8, lm i
        = ρ * ∑ p : Fin 8, int_wts (K := K) p * det3 (jac g coords p) := by
  refine ⟨_, by rw [ComputeLumpedMass, if_pos h], ?_⟩
  rw [Finset.sum_comm, Finset.mul_sum]
  refine Finset.sum_congr rfl fun p _ => ?_
  have hsum : ∑ i : Fin 8, shape_fcn_vals g p i = 1 := sum_shapeVal (intPt g p)
  calc
    ∑ i : Fin 8, int_wts (K := K) p * ρ * shape_fcn_vals g p i * det3 (jac g coords p)
        = (int_wts (K := K) p * ρ * det3 (jac g coords p))
            * ∑ i : Fin 8, shape_fcn_vals g p i := by
          rw [Finset.mul_sum]
          exact Finset.sum_congr rfl fun i _ => by ring
    _ = ρ * (int_wts (K := K) p * det3 (jac g coords p)) := by rw [hsum]; ring

/-- C4: the volume returned by the volume-averaging operation equals the
sum over the 8 integration points of the quadrature weight times the
Jacobian determinant of the current-configuration isoparametric map. -/
theorem volumeAverage_volume_eq_quadrature_sum (g ε : K) {nq : ℕ}
    (ref disp : Fin 8 → Fin 3 → K) (q : Fin 8 → Fin nq → K)
    (h : ∀ p : Fin 8, ¬ degenerateAt g ε (curCoords ref disp) p) :
    ∃ vol avg, ComputeVolumeAverageQuantities_impl g ε ref disp q = .ok (vol, avg) ∧
      vol = ∑ p : Fin 8, int_wts (K := K) p * det3 (jac g (curCoords ref disp) p) := by
  refine ⟨_, _, by rw [ComputeVolumeAverageQuantities_impl, if_pos h], ?_⟩
  simp [int_wts]

/-- C5: with all integration-point stress components zero, the nodal
force output is exactly zero at all 8 nodes and 3 components. -/
theorem nodalForces_zero_stress (g ε : K) (ref disp : Fin 8 → Fin 3 → K)
    (buf : Fin 8 → Fin 3 → K)
    (h : ∀ p : Fin 8, ¬ degenerateAt g ε (curCoords ref disp) p) :
    ComputeNodalForces_impl g ε ref disp (fun _ _ => 0) buf = .ok (fun _ _ => 0) := by
  rw [ComputeNodalForces_impl, if_pos h, writeForces_apply]
  congr 1
  funext n j
  simp [forceVal, stressDiv]

/-- C6: for a uniform dilation (current coordinates `s` times the
reference coordinates), the deformation gradient at every integration
point is `s` times the identity tensor. -/
theorem defGrad_uniform_dilation (g ε s : K) (ref : Fin 8 → Fin 3 → K)
    (hε : 0 ≤ ε) (h : ∀ p : Fin 8, ¬ degenerateAt g ε ref p) :
    ComputeDeformationGradients_impl g ε ref (fun n c => s * ref n c - ref n c)
      = .ok (fun _ k => if k.val < 3 then s else 0) := by
  rw [ComputeDeformationGradients_impl, if_pos h]
  congr 1
  funext p
  rw [curCoords_dilation, jac_smul, matMul3_smul_left,
    matMul3_inv3 _ (det_ne_zero_of_not_degenerate hε (h p)), fullTensorOfMat_smul_id]

/-- C7: with strictly positive integration-point Jacobian determinants,
each volume-averaged component lies in the closed interval between the
minimum and maximum of that component over the 8 integration points, and
a spatially constant field is averaged to exactly that constant. -/
theorem volumeAverage_convex_bounds (g ε : K) {nq : ℕ}
    (ref disp : Fin 8 → Fin 3 → K) (q : Fin 8 → Fin nq → K)
    (hε : 0 ≤ ε)
    (hdet : ∀ p : Fin 8, ε < det3 (jac g (curCoords ref disp) p)) :
    ∃ vol avg, ComputeVolumeAverageQuantities_impl g ε ref disp q = .ok (vol, avg) ∧
      (∀ i, (Finset.univ.inf' Finset.univ_nonempty fun p => q p i) ≤ avg i ∧
            avg i ≤ Finset.univ.sup' Finset.univ_nonempty fun p => q p i) ∧
      (∀ i c, (∀ p, q p i = c) → avg i = c) := by
  have hpos : ∀ p : Fin 8, 0 < det3 (jac g (curCoords ref disp) p) :=
    fun p => lt_of_le_of_lt hε (hdet p)
  have h : ∀ p : Fin 8, ¬ degenerateAt g ε (curCoords ref disp) p := by
    intro p hp
    simp only [degenerateAt, abs_of_pos (hpos p)] at hp
    exact absurd hp (not_le.mpr (hdet p))
  have hV : 0 < ∑ p : Fin 8, det3 (jac g (curCoords ref disp) p) :=
    Finset.sum_pos (fun p _ => hpos p) Finset.univ_nonempty
  refine ⟨_, _, by rw [ComputeVolumeAverageQuantities_impl, if_pos h], ?_, ?_⟩
  · intro i
    constructor
    · rw [le_div_iff hV, Finset.mul_sum]
      refine Finset.sum_le_sum fun p _ => ?_
      have hle : (Finset.univ.inf' Finset.univ_nonempty fun p => q p i) ≤ q p i :=
        Finset.inf'_le _ (Finset.mem_univ p)
      simp only [int_wts, mul_one]
      exact mul_le_mul_of_nonneg_right hle (hpos p).le
    · rw [div_le_iff hV, Finset.mul_sum]
      refine Finset.sum_le_sum fun p _ => ?_
      have hle : q p i ≤ Finset.univ.sup' Finset.univ_nonempty fun p => q p i :=
        Finset.le_sup' (fun p => q p i) (Finset.mem_univ p)
      simp only [int_wts, mul_one]
      exact mul_le_mul_of_nonneg_right hle (hpos p).le
  · intro i c hc
    simp only [hc, int_wts, mul_one]
    rw [← Finset.mul_sum, mul_div_assoc, div_self hV.ne', mul_one]

/-- C9: the 8×8 consistent mass matrix is symmetric: entry (i,j) equals
entry (j,i) for every density and node coordinates. -/
theorem consistentMass_symmetric (g ε ρ : K) (coords : Fin 8 → Fin 3 → K)
    (h : ∀ p : Fin 8, ¬ degenerateAt g ε coords p) :
    ∃ M, ComputeConsistentMass_impl g ε ρ coords = .ok M ∧ ∀ i j, M i j = M j i := by
  refine ⟨_, by rw [ComputeConsistentMass_impl, if_pos h], fun i j => ?_⟩
  exact Finset.sum_congr rfl fun p _ => by ring

/-- C10: `ComputeNodalForces` assigns every entry of the output buffer,
so two runs on the same coordinates, displacements and stresses but with
different prior buffer contents produce identical final contents. -/
theorem nodalForces_independent_of_prior_buffer (g ε : K)
    (ref disp : Fin 8 → Fin 3 → K) (stress : Fin 8 → Fin 6 → K)
    (buf1 buf2 : Fin 8 → Fin 3 → K) :
    ComputeNodalForces_impl g ε ref disp stress buf1
      = ComputeNodalForces_impl g ε ref disp stress buf2 := by
  by_cases hc : ∀ p : Fin 8, ¬ degenerateAt g ε (curCoords ref disp) p
  · rw [ComputeNodalForces_impl, ComputeNodalForces_impl, if_pos hc, if_pos hc,
      writeForces_apply, writeForces_apply]
  · rw [ComputeNodalForces_impl, ComputeNodalForces_impl, if_neg hc, if_neg hc]

/-- C8: the characteristic length of the regular unit cube is strictly
positive, and it strictly decreases as the cube is uniformly scaled
down: for `0 < s1 < s2` the length at scale `s1` is strictly below the
length at scale `s2`. -/
theorem characteristicLength_positive_and_monotone :
    0 < ComputeCharacteristicLength (unitCube (K := ℝ)) ∧
    ∀ s1 s2 : ℝ, 0 < s1 → s1 < s2 →
      ComputeCharacteristicLength (scaleCoords s1 (unitCube (K := ℝ)))
        < ComputeCharacteristicLength (scaleCoords s2 (unitCube (K := ℝ))) := by
  constructor
  · rw [ComputeCharacteristicLength, ← scaleCoords_one (unitCube (K := ℝ)),
      minFaceDiagSq_scale_unitCube, Real.sqrt_pos]
    norm_num
  · intro s1 s2 h1 h12
    rw [ComputeCharacteristicLength, ComputeCharacteristicLength,
      minFaceDiagSq_scale_unitCube, minFaceDiagSq_scale_unitCube]
    apply Real.sqrt_lt_sqrt
    · positivity
    · nlinarith

/-! ### Concrete witnesses -/

/-- C1 witness: the zero matrix and the fully collapsed element trip the
degeneracy signal in `Invert3x3` and in every caller. -/
theorem invert3x3_degeneracy_propagates_witness :
    Invert3x3 (0 : ℚ) zeroMat = .error .degenerateGeometry ∧
    ComputeLumpedMass (0 : ℚ) 0 1 zeroCoords = .error .degenerateGeometry ∧
    ComputeConsistentMass_impl (0 : ℚ) 0 1 zeroCoords = .error .degenerateGeometry ∧
    ComputeDeformationGradients_impl (0 : ℚ) 0 zeroCoords zeroCoords
      = .error .degenerateGeometry ∧
    ComputeNodalForces_impl (0 : ℚ) 0 zeroCoords zeroCoords zeroStress zeroCoords
      = .error .degenerateGeometry ∧
    ComputeTangent (0 : ℚ) 0 (curCoords zeroCoords zeroCoords) (fun _ _ => 0)
      = .error .degenerateGeometry ∧
    ComputeVolumeAverageQuantities_impl (0 : ℚ) 0 zeroCoords zeroCoords (fun _ (_ : Fin 1) => 0)
      = .error .degenerateGeometry :=
  invert3x3_degeneracy_propagates 0 0 1 zeroMat zeroCoords zeroCoords zeroStress
    (fun _ _ => 0) (fun _ (_ : Fin 1) => 0) zeroCoords
    (by simp [det3, zeroMat])
    ⟨0, by simp [degenerateAt, jac, zeroCoords, det3]⟩
    ⟨0, by simp [degenerateAt, jac, curCoords, zeroCoords, det3]⟩

/-- C2 witness: on the unit cube with zero displacements, the computed
deformation gradients are the identity tensor at every integration
point. -/
theorem defGrad_identity_at_zero_displacement_witness :
    ComputeDeformationGradients_impl (0 : ℚ) 0 (unitCube (K := ℚ)) (fun _ _ => 0)
      = .ok (fun _ k => if k.val < 3 then 1 else 0) :=
  defGrad_identity_at_zero_displacement 0 0 (unitCube (K := ℚ)) (le_refl 0)
    (fun p => by norm_num [degenerateAt, det3_jac_unitCube])

/-- C3 witness: on a concrete element the lumped masses sum to density
times the integrated volume. -/
theorem lumpedMass_sum_eq_density_mul_volume_witness :
    ∃ lm, ComputeLumpedMass (0 : ℚ) (-1) 1 zeroCoords = .ok lm ∧
      ∑ i : Fin 8, lm i
        = 1 * ∑ p : Fin 8, int_wts (K := ℚ) p * det3 (jac 0 zeroCoords p) :=
  lumpedMass_sum_eq_density_mul_volume 0 (-1) 1 zeroCoords
    (fun p => by simp [degenerateAt, jac, zeroCoords, det3])

/-- C4 witness: on a concrete element the returned volume is the
quadrature sum of weight times Jacobian determinant. -/
theorem volumeAverage_volume_eq_quadrature_sum_witness :
    ∃ vol avg, ComputeVolumeAverageQuantities_impl (0 : ℚ) (-1) zeroCoords zeroCoords
        (fun _ (_ : Fin 1) => 0) = .ok (vol, avg) ∧
      vol = ∑ p : Fin 8, int_wts (K := ℚ) p * det3 (jac 0 (curCoords zeroCoords zeroCoords) p) :=
  volumeAverage_volume_eq_quadrature_sum 0 (-1) zeroCoords zeroCoords
    (fun _ (_ : Fin 1) => 0)
    (fun p => by simp [degenerateAt, jac, curCoords, zeroCoords, det3])

/-- C5 witness: zero stress on the unit cube yields an exactly zero
nodal-force output. -/
theorem nodalForces_zero_stress_witness :
    ComputeNodalForces_impl (0 : ℚ) 0 (unitCube (K := ℚ)) (fun _ _ => 0) (fun _ _ => 0)
        (fun _ _ => 1) = .ok (fun _ _ => 0) :=
  nodalForces_zero_stress 0 0 (unitCube (K := ℚ)) (fun _ _ => 0) (fun _ _ => 1)
    (fun p => by
      rw [curCoords_zero]
      norm_num [degenerateAt, det3_jac_unitCube])

/-- C6 witness: doubling the unit cube yields deformation gradients equal
to twice the identity at every integration point. -/
theorem defGrad_uniform_dilation_witness :
    ComputeDeformationGradients_impl (0 : ℚ) 0 (unitCube (K := ℚ))
        (fun n c => 2 * unitCube (K := ℚ) n c - unitCube (K := ℚ) n c)
      = .ok (fun _ k => if k.val < 3 then 2 else 0) :=
  defGrad_uniform_dilation 0 0 2 (unitCube (K := ℚ)) (le_refl 0)
    (fun p => by norm_num [degenerateAt, det3_jac_unitCube])

/-- C7 witness: averaging the constant field 3 over the undisplaced unit
cube stays within its (degenerate) convex range and equals 3. -/
theorem volumeAverage_convex_bounds_witness :
    ∃ vol avg, ComputeVolumeAverageQuantities_impl (0 : ℚ) 0 (unitCube (K := ℚ)) (fun _ _ => 0)
        (fun _ (_ : Fin 1) => 3) = .ok (vol, avg) ∧
      (∀ i, (Finset.univ.inf' Finset.univ_nonempty fun _ : Fin 8 => (3 : ℚ)) ≤ avg i ∧
            avg i ≤ Finset.univ.sup' Finset.univ_nonempty fun _ : Fin 8 => (3 : ℚ)) ∧
      (∀ i c, (∀ _p : Fin 8, (3 : ℚ) = c) → avg i = c) :=
  volumeAverage_convex_bounds 0 0 (unitCube (K := ℚ)) (fun _ _ => 0)
    (fun _ (_ : Fin 1) => 3) (le_refl 0)
    (fun p => by
      rw [curCoords_zero]
      norm_num [det3_jac_unitCube])

/-- C8 witness: the characteristic length at scale 1 is strictly below
the one at scale 2. -/
theorem characteristicLength_positive_and_monotone_witness :
    ComputeCharacteristicLength (scaleCoords (1 : ℝ) (unitCube (K := ℝ)))
      < ComputeCharacteristicLength (scaleCoords (2 : ℝ) (unitCube (K := ℝ))) :=
  characteristicLength_positive_and_monotone.2 1 2 (by norm_num) (by norm_num)

/-- C9 witness: the consistent mass matrix of the unit cube is
symmetric. -/
theorem consistentMass_symmetric_witness :
    ∃ M, ComputeConsistentMass_impl (0 : ℚ) 0 1 (unitCube (K := ℚ)) = .ok M ∧
      ∀ i j, M i j = M j i :=
  consistentMass_symmetric 0 0 1 (unitCube (K := ℚ))
    (fun p => by norm_num [degenerateAt, det3_jac_unitCube])

end Nimble
